import Mathlib

/-!
Verification of the sqlx secure-transport layer (TLS handshake/adapter
subsystem) and the workspace dependency-graph utility, as a shallow
embedding in Lean 4.

Strings and byte buffers are modelled as `List Char`; the file system as a
partial map from paths to contents; the rustls / native-tls engines are
abstracted by scripting their observable outcomes, while every piece of
control flow written in the repository itself (classification, error
reclassification, retry loops, flag gating, graph traversal) is translated
faithfully from the source.
-/

namespace Sqlx

/-- Strings and byte buffers, modelled as lists of characters. -/
abbrev Str := List Char

/-- Rust `str::trim`: remove whitespace from both ends. -/
def trim (s : Str) : Str :=
  ((s.dropWhile Char.isWhitespace).reverse.dropWhile Char.isWhitespace).reverse

/-- Rust `str::contains(needle)`: substring occurrence test. -/
def contains_sub (needle : Str) : Str → Bool
  | [] => needle.isEmpty
  | c :: rest => needle.isPrefixOf (c :: rest) || contains_sub needle rest

/-- `contains_sub` decides the infix relation. -/
theorem contains_sub_iff_infix (needle hay : Str) :
    contains_sub needle hay = true ↔ needle <:+: hay := by
  induction hay with
  | nil =>
    simp [contains_sub, List.isEmpty_iff]
  | cons c rest ih =>
    simp only [contains_sub, Bool.or_eq_true, List.isPrefixOf_iff_prefix, ih]
    exact List.infix_cons_iff.symm

/-- The PEM armour begin marker from the source's inline-certificate heuristic. -/
def begin_marker : Str := "-----BEGIN CERTIFICATE-----".data

/-- The PEM armour end marker from the source's inline-certificate heuristic. -/
def end_marker : Str := "-----END CERTIFICATE-----".data

/-- X.509 certificate input: either inline PEM bytes or a path to a file
(`CertificateInput` in `net/tls/mod.rs`). -/
inductive CertificateInput where
  | Inline (bytes : Str)
  | File (path : Str)
  deriving DecidableEq, Repr

/-- `impl From<String> for CertificateInput`: trim the value, classify as
inline when the trimmed text starts with the BEGIN marker and contains the
END marker, otherwise treat the whole (untrimmed) value as a file path. -/
def certificate_input_from (value : Str) : CertificateInput :=
  let trimmed := trim value
  if begin_marker.isPrefixOf trimmed && contains_sub end_marker trimmed then
    CertificateInput.Inline value
  else
    CertificateInput.File value

/-- The file system, as a partial map from paths to file contents; `none`
models a missing or unreadable file. -/
def FileSys := Str → Option Str

/-- `CertificateInput::data`: inline input returns the stored bytes, file
input reads the file. The second component is the I/O trace: the list of
paths read from the file system during the call. -/
def data (fs : FileSys) : CertificateInput → Except Unit Str × List Str
  | CertificateInput.Inline v => (Except.ok v, [])
  | CertificateInput.File path =>
    match fs path with
    | some contents => (Except.ok contents, [path])
    | none => (Except.error (), [path])

/-- C2: `CertificateInput::from` is total (always yields `Inline` or `File`),
yields `Inline` carrying the original string exactly when the trimmed value
starts with the BEGIN CERTIFICATE marker and contains the END CERTIFICATE
marker, and yields `File` with the string as the path otherwise. -/
theorem certificate_input_from_spec (value : Str) :
    (certificate_input_from value = CertificateInput.Inline value ∨
      certificate_input_from value = CertificateInput.File value)
    ∧ (certificate_input_from value = CertificateInput.Inline value ↔
        begin_marker <+: trim value ∧ end_marker <:+: trim value)
    ∧ (¬(begin_marker <+: trim value ∧ end_marker <:+: trim value) →
        certificate_input_from value = CertificateInput.File value) := by
  have hiff : (begin_marker.isPrefixOf (trim value)
      && contains_sub end_marker (trim value)) = true ↔
      (begin_marker <+: trim value ∧ end_marker <:+: trim value) := by
    simp [List.isPrefixOf_iff_prefix, contains_sub_iff_infix]
  by_cases h : (begin_marker.isPrefixOf (trim value)
      && contains_sub end_marker (trim value)) = true
  · refine ⟨Or.inl ?_, ?_, fun hc => absurd (hiff.mp h) hc⟩
    · simp [certificate_input_from, h]
    · simp [certificate_input_from, h, hiff.mp h]
  · refine ⟨Or.inr ?_, ?_, fun _ => ?_⟩
    · simp [certificate_input_from, h]
    · simp [certificate_input_from, h]
      exact fun ha hb => absurd (hiff.mpr ⟨ha, hb⟩) h
    · simp [certificate_input_from, h]

/-- C5: on an input the classifier decided is inline, `CertificateInput::data`
returns exactly the bytes of the original input string and reads nothing from
the file system (empty I/O trace). -/
theorem inline_data_no_io (value b : Str) (fs : FileSys)
    (h : certificate_input_from value = CertificateInput.Inline b) :
    data fs (CertificateInput.Inline b) = (Except.ok value, []) := by
  have hb : b = value := by
    unfold certificate_input_from at h
    by_cases hc : (begin_marker.isPrefixOf (trim value)
        && contains_sub end_marker (trim value)) = true
    · simp [hc] at h
      exact h.symm
    · simp [hc] at h
  subst hb
  rfl

/-- Witness for C5 at a concrete PEM string and an empty file system. -/
theorem inline_data_no_io_witness :
    data (fun _ => none)
        (CertificateInput.Inline "-----BEGIN CERTIFICATE-----MIIB-----END CERTIFICATE-----".data)
      = (Except.ok "-----BEGIN CERTIFICATE-----MIIB-----END CERTIFICATE-----".data, []) :=
  inline_data_no_io _ _ _ (by decide)

/-! ## Certificate verification policies (tls_rustls.rs) -/

/-- The rustls error type, restricted to the variants the verification
policies inspect: `InvalidCertificateData` carries the textual reason the
source string-matches on; the other variants stand for the remaining
validation failure classes (encoding, signature, expiry, chain of trust,
protocol errors ...). -/
inductive TlsError where
  | InvalidCertificateData (reason : Str)
  | InvalidCertificateEncoding
  | InvalidCertificateSignature
  | General (msg : Str)
  deriving DecidableEq, Repr

/-- The token the source looks for inside the verifier's
`InvalidCertificateData` reason to recognise a hostname mismatch. -/
def cert_not_valid_for_name : Str := "CertNotValidForName".data

/-- `rustls::client::ServerCertVerified`: the opaque success token. -/
inductive ServerCertVerified where
  | assertion
  deriving DecidableEq, Repr

/-- Does the source's guard classify this error as a hostname mismatch
(an `InvalidCertificateData` whose reason contains `CertNotValidForName`)? -/
def is_name_mismatch : TlsError → Bool
  | TlsError.InvalidCertificateData reason => contains_sub cert_not_valid_for_name reason
  | _ => false

/-- `NoHostnameTlsVerifier::verify_server_cert`, as a function of the wrapped
standard `WebPkiVerifier`'s outcome: reclassify a hostname-mismatch failure
as success, return every other outcome unchanged. -/
def no_hostname_verify_server_cert (std_result : Except TlsError ServerCertVerified) :
    Except TlsError ServerCertVerified :=
  match std_result with
  | Except.error (TlsError.InvalidCertificateData reason) =>
    if contains_sub cert_not_valid_for_name reason then
      Except.ok ServerCertVerified.assertion
    else
      Except.error (TlsError.InvalidCertificateData reason)
  | res => res

/-- C1: the no-hostname verifier succeeds exactly when the standard verifier
succeeds or fails with the name-mismatch classification, and every other
failure is propagated unchanged, preserving its classification. -/
theorem no_hostname_verifier_spec (r : Except TlsError ServerCertVerified) :
    (no_hostname_verify_server_cert r = Except.ok ServerCertVerified.assertion ↔
      (r = Except.ok ServerCertVerified.assertion ∨
        ∃ reason, r = Except.error (TlsError.InvalidCertificateData reason) ∧
          contains_sub cert_not_valid_for_name reason = true))
    ∧ (∀ e, is_name_mismatch e = false →
        no_hostname_verify_server_cert (Except.error e) = Except.error e) := by
  constructor
  · match r with
    | Except.ok ServerCertVerified.assertion => simp [no_hostname_verify_server_cert]
    | Except.error (TlsError.InvalidCertificateData reason) =>
      by_cases hc : contains_sub cert_not_valid_for_name reason = true
      · simp [no_hostname_verify_server_cert, hc]
      · simp [no_hostname_verify_server_cert, hc]
    | Except.error TlsError.InvalidCertificateEncoding =>
      simp [no_hostname_verify_server_cert]
    | Except.error TlsError.InvalidCertificateSignature =>
      simp [no_hostname_verify_server_cert]
    | Except.error (TlsError.General msg) =>
      simp [no_hostname_verify_server_cert]
  · intro e he
    match e with
    | TlsError.InvalidCertificateData reason =>
      simp [is_name_mismatch] at he
      simp [no_hostname_verify_server_cert, he]
    | TlsError.InvalidCertificateEncoding => rfl
    | TlsError.InvalidCertificateSignature => rfl
    | TlsError.General msg => rfl

/-- `rustls::Certificate`: DER bytes. -/
structure Certificate where
  bytes : Str
  deriving DecidableEq, Repr

/-- `DummyTlsVerifier::verify_server_cert`: ignores every input and reports
the certificate as verified. -/
def dummy_verify_server_cert (_end_entity : Certificate)
    (_intermediates : List Certificate) (_server_name : Str)
    (_scts : List Str) (_ocsp_response : Str) (_now : Nat) :
    Except TlsError ServerCertVerified :=
  Except.ok ServerCertVerified.assertion

/-- C6: the accept-invalid-certs verifier unconditionally reports the server
certificate as verified, for every end-entity certificate, intermediate
list, server name, SCT list, OCSP response and time. -/
theorem dummy_verifier_accepts_everything (end_entity : Certificate)
    (intermediates : List Certificate) (server_name : Str)
    (scts : List Str) (ocsp_response : Str) (now : Nat) :
    dummy_verify_server_cert end_entity intermediates server_name scts
        ocsp_response now = Except.ok ServerCertVerified.assertion :=
  rfl

/-! ## The rustls socket adapter (tls_rustls.rs) -/

/-- `std::task::Poll`. -/
inductive Poll (α : Type) where
  | pending
  | ready (a : α)
  deriving DecidableEq, Repr

/-- Hard I/O error codes. A would-block condition never escapes the adapter
loops; it is represented structurally by the script constructors below. -/
abbrev IoErr := Nat

/-- One iteration of the `poll_complete_io` loop, recording how the engine
(`ClientConnection::complete_io`) and, on would-block, the bridge's
`poll_ready` behave on that iteration. -/
inductive CioStep where
  | ret (r : Except IoErr Unit)
  | block_pending
  | block_ready_err (e : IoErr)
  | block_ready_ok
  deriving Repr

/-- `RustlsSocket::poll_complete_io`: loop the engine's `complete_io`; when
it signals would-block, poll the bridge for readiness (propagating
`Poll::Pending` and readiness errors via `ready!` and `?`) and loop again;
any other completion result is returned. The behaviour of the engine and
socket across iterations is scripted by the list. -/
def poll_complete_io : List CioStep → Poll (Except IoErr Unit)
  | [] => Poll.pending
  | CioStep.ret r :: _ => Poll.ready r
  | CioStep.block_pending :: _ => Poll.pending
  | CioStep.block_ready_err e :: _ => Poll.ready (Except.error e)
  | CioStep.block_ready_ok :: rest => poll_complete_io rest

/-- `RustlsSocket::poll_read_ready`: delegates to `poll_complete_io`. -/
def poll_read_ready (env : List CioStep) : Poll (Except IoErr Unit) :=
  poll_complete_io env

/-- `RustlsSocket::poll_write_ready`: delegates to `poll_complete_io`. -/
def poll_write_ready (env : List CioStep) : Poll (Except IoErr Unit) :=
  poll_complete_io env

/-- C7: on the rustls socket, `poll_read_ready` and `poll_write_ready` both
resolve by running the `complete_io` pump, and so are extensionally equal to
it and to each other; neither has a separate fast path. -/
theorem read_write_ready_are_complete_io (env : List CioStep) :
    poll_read_ready env = poll_complete_io env
    ∧ poll_write_ready env = poll_complete_io env
    ∧ poll_read_ready env = poll_write_ready env :=
  ⟨rfl, rfl, rfl⟩

/-- The observable state of a `RustlsSocket` for the shutdown path: the
`close_notify_sent` flag of the struct, and — as the observation of the
abstracted `ClientConnection` — how many times `send_close_notify` has been
invoked on the session. -/
structure RustlsSocket where
  close_notify_sent : Bool
  close_notify_sends : Nat
  deriving DecidableEq, Repr

/-- The environment of one `poll_shutdown` call: the scripted behaviour of
the `complete_io` pump, and the result of the plain socket's shutdown. -/
structure ShutdownEnv where
  cio : List CioStep
  inner_shutdown : Poll (Except IoErr Unit)

/-- `RustlsSocket::poll_shutdown`: if the close-notify record was not sent
yet, invoke `send_close_notify` on the session and set the flag; then flush
via `poll_complete_io` and, once that completes cleanly, shut down the
underlying plain socket. -/
def poll_shutdown (env : ShutdownEnv) (s : RustlsSocket) :
    RustlsSocket × Poll (Except IoErr Unit) :=
  let s1 := if s.close_notify_sent then s else
    { s with close_notify_sent := true, close_notify_sends := s.close_notify_sends + 1 }
  match poll_complete_io env.cio with
  | Poll.pending => (s1, Poll.pending)
  | Poll.ready (Except.error e) => (s1, Poll.ready (Except.error e))
  | Poll.ready (Except.ok _) => (s1, env.inner_shutdown)

/-- A freshly established rustls socket: no close-notify sent yet. -/
def established_socket : RustlsSocket :=
  { close_notify_sent := false, close_notify_sends := 0 }

/-- Iterated `poll_shutdown` calls (retries after pending/would-block or
repeated shutdown requests), keeping the socket state. -/
def run_poll_shutdown (envs : List ShutdownEnv) (s : RustlsSocket) : RustlsSocket :=
  envs.foldl (fun s env => (poll_shutdown env s).1) s

theorem poll_shutdown_sent_fixed (env : ShutdownEnv) (s : RustlsSocket)
    (h : s.close_notify_sent = true) : (poll_shutdown env s).1 = s := by
  unfold poll_shutdown
  rw [if_pos h]
  cases poll_complete_io env.cio with
  | pending => rfl
  | ready r =>
    cases r with
    | error e => rfl
    | ok u => rfl

theorem poll_shutdown_first_call (env : ShutdownEnv) :
    (poll_shutdown env established_socket).1
      = { close_notify_sent := true, close_notify_sends := 1 } := by
  unfold poll_shutdown established_socket
  cases poll_complete_io env.cio with
  | pending => rfl
  | ready r =>
    cases r with
    | error e => rfl
    | ok u => rfl

theorem run_poll_shutdown_sent_fixed (envs : List ShutdownEnv) (s : RustlsSocket)
    (h : s.close_notify_sent = true) : run_poll_shutdown envs s = s := by
  induction envs generalizing s with
  | nil => rfl
  | cons env rest ih =>
    show run_poll_shutdown rest (poll_shutdown env s).1 = s
    rw [poll_shutdown_sent_fixed env s h, ih s h]

/-- C3: over every sequence of `poll_shutdown` calls on an established rustls
socket, `send_close_notify` is invoked at most once: the first call invokes
it and sets the `close_notify_sent` flag, and any call on a socket whose flag
is set leaves the invocation count (and the whole state) unchanged. -/
theorem close_notify_sent_at_most_once (envs : List ShutdownEnv) (env0 : ShutdownEnv) :
    (run_poll_shutdown envs established_socket).close_notify_sends = min envs.length 1
    ∧ ((poll_shutdown env0 established_socket).1.close_notify_sent = true
        ∧ (poll_shutdown env0 established_socket).1.close_notify_sends = 1)
    ∧ (∀ s : RustlsSocket, s.close_notify_sent = true →
        (poll_shutdown env0 s).1 = s) := by
  refine ⟨?_, ?_, fun s h => poll_shutdown_sent_fixed env0 s h⟩
  · cases envs with
    | nil => rfl
    | cons env rest =>
      show (run_poll_shutdown rest (poll_shutdown env established_socket).1).close_notify_sends
        = min (rest.length + 1) 1
      rw [poll_shutdown_first_call env, run_poll_shutdown_sent_fixed rest _ rfl]
      show 1 = min (rest.length + 1) 1
      omega
  · rw [poll_shutdown_first_call env0]
    exact ⟨rfl, rfl⟩

/-! ## The rustls handshake's configuration phase (tls_rustls.rs) -/

/-- `TlsConfig` (net/tls/mod.rs): the per-handshake configuration view. -/
structure TlsConfig where
  accept_invalid_certs : Bool
  accept_invalid_hostnames : Bool
  hostname : Str
  root_cert_path : Option CertificateInput

/-- The `rustls::ClientConfig` the handshake builds, by installed verification
policy: the `DummyTlsVerifier`, the `NoHostnameTlsVerifier` wrapping a
`WebPkiVerifier` over the given root store, or standard verification against
the given root store. -/
inductive ClientConfigModel where
  | dummy
  | no_hostname (roots : List Certificate)
  | standard (roots : List Certificate)
  deriving DecidableEq, Repr

/-- Errors of the configuration phase: a failed root-certificate read, or an
undecodable / unaddable root certificate (the source's `Invalid certificate`
and store-add failures, merged into the PEM-decoding parameter). -/
inductive ConfigError where
  | io_read_failed
  | invalid_certificate
  deriving DecidableEq, Repr

/-- The configuration phase of `tls_rustls::handshake` (building the
`ClientConfig`): with `accept_invalid_certs` install the dummy verifier and
touch nothing else; otherwise build a root store from the webpki roots, load
and add the configured root certificate if any (via `CertificateInput::data`),
then select the no-hostname or the standard verifier. `webpki` abstracts
`webpki_roots::TLS_SERVER_ROOTS`, `pem_certs` abstracts
`rustls_pemfile::certs` plus `RootCertStore::add`. Besides the result it
returns the trace of `CertificateInput::data` calls and of file reads. -/
def configure (webpki : List Certificate)
    (pem_certs : Str → Except Unit (List Certificate)) (fs : FileSys)
    (tc : TlsConfig) :
    Except ConfigError ClientConfigModel × List CertificateInput × List Str :=
  if tc.accept_invalid_certs then
    (Except.ok ClientConfigModel.dummy, [], [])
  else
    match tc.root_cert_path with
    | none =>
      if tc.accept_invalid_hostnames then
        (Except.ok (ClientConfigModel.no_hostname webpki), [], [])
      else
        (Except.ok (ClientConfigModel.standard webpki), [], [])
    | some ca =>
      match data fs ca with
      | (Except.error _, reads) => (Except.error ConfigError.io_read_failed, [ca], reads)
      | (Except.ok bytes, reads) =>
        match pem_certs bytes with
        | Except.error _ => (Except.error ConfigError.invalid_certificate, [ca], reads)
        | Except.ok certs =>
          if tc.accept_invalid_hostnames then
            (Except.ok (ClientConfigModel.no_hostname (webpki ++ certs)), [ca], reads)
          else
            (Except.ok (ClientConfigModel.standard (webpki ++ certs)), [ca], reads)

/-- C9: with `accept_invalid_certs` set, the configuration phase installs the
dummy verifier, calls `CertificateInput::data` on nothing, reads no file,
and its outcome is independent of `accept_invalid_hostnames`, of the
configured root certificate, of the file system and of the PEM decoder. -/
theorem accept_invalid_certs_skips_root_loading (webpki : List Certificate)
    (pem_certs : Str → Except Unit (List Certificate)) (fs : FileSys)
    (hostname : Str) (aih : Bool) (root : Option CertificateInput) :
    configure webpki pem_certs fs
        { accept_invalid_certs := true, accept_invalid_hostnames := aih,
          hostname := hostname, root_cert_path := root }
      = (Except.ok ClientConfigModel.dummy, [], []) :=
  rfl

/-! ## The native-tls handshake (tls_native_tls.rs) -/

/-- The outcome of one handshake attempt (`TlsConnector::connect` or
`MidHandshakeTlsStream::handshake`): an established stream, a hard failure
(`HandshakeError::Failure`), or `HandshakeError::WouldBlock` with the
mid-handshake continuation retained. -/
inductive HsOutcome where
  | established
  | failure (e : Nat)
  | would_block
  deriving DecidableEq, Repr

/-- One iteration of the retry loop as scripted by the environment: the
result of awaiting the bridge's readiness (`ready().await`), and — when
readiness succeeded — the outcome of the retried handshake step. -/
abbrev HsStep := Except Nat Unit × HsOutcome

/-- The retry loop of `tls_native_tls::handshake`, with `n` the number of
handshake attempts already performed: await readiness (propagating its error
via `?` without another attempt), retry the continuation's handshake step,
return on success or hard failure, loop on would-block. `none` means the
script ended before the loop did. -/
def handshake_loop : List HsStep → Nat → Option (Except Nat Unit × Nat)
  | [], _ => none
  | (Except.error e, _) :: _, n => some (Except.error e, n)
  | (Except.ok _, HsOutcome.established) :: _, n => some (Except.ok (), n + 1)
  | (Except.ok _, HsOutcome.failure e) :: _, n => some (Except.error e, n + 1)
  | (Except.ok _, HsOutcome.would_block) :: rest, n => handshake_loop rest (n + 1)

/-- `tls_native_tls::handshake` after the connector is built: attempt
`connector.connect` once (outcome `first`); return the adapter on immediate
success, a TLS error on immediate hard failure, and otherwise enter the
retry loop with the continuation. The second component counts handshake
attempts (the connect plus each retried step). -/
def native_tls_handshake (first : HsOutcome) (script : List HsStep) :
    Option (Except Nat Unit × Nat) :=
  match first with
  | HsOutcome.established => some (Except.ok (), 1)
  | HsOutcome.failure e => some (Except.error e, 1)
  | HsOutcome.would_block => handshake_loop script 1

theorem handshake_loop_replicate (k n : Nat) (tail : List HsStep) :
    handshake_loop
        (List.replicate k (Except.ok (), HsOutcome.would_block) ++ tail) n
      = handshake_loop tail (n + k) := by
  induction k generalizing n with
  | zero => rfl
  | succ k ih =>
    rw [List.replicate_succ, List.cons_append]
    show handshake_loop (List.replicate k (Except.ok (), HsOutcome.would_block) ++ tail) (n + 1)
      = handshake_loop tail (n + (k + 1))
    rw [ih (n + 1)]
    congr 1
    omega

/-- C4: the native-tls handshake attempts the connect once and follows
Init → Established | Failed | WouldBlock: immediate success returns the
adapter after one attempt; a hard failure returns the error after one
attempt and never re-attempts, whatever the rest of the script holds; on
would-block it awaits readiness and retries until the first decisive
outcome — after `k` further would-blocks, success or hard failure at the
next step returns after `k + 2` attempts, and a readiness error aborts with
no further attempt. -/
theorem native_tls_handshake_state_machine :
    (∀ script, native_tls_handshake HsOutcome.established script
      = some (Except.ok (), 1))
    ∧ (∀ e script, native_tls_handshake (HsOutcome.failure e) script
      = some (Except.error e, 1))
    ∧ (∀ k rest, native_tls_handshake HsOutcome.would_block
        (List.replicate k (Except.ok (), HsOutcome.would_block)
          ++ (Except.ok (), HsOutcome.established) :: rest)
      = some (Except.ok (), k + 2))
    ∧ (∀ k e rest, native_tls_handshake HsOutcome.would_block
        (List.replicate k (Except.ok (), HsOutcome.would_block)
          ++ (Except.ok (), HsOutcome.failure e) :: rest)
      = some (Except.error e, k + 2))
    ∧ (∀ k e o rest, native_tls_handshake HsOutcome.would_block
        (List.replicate k (Except.ok (), HsOutcome.would_block)
          ++ (Except.error e, o) :: rest)
      = some (Except.error e, k + 1)) := by
  refine ⟨fun _ => rfl, fun _ _ => rfl, ?_, ?_, ?_⟩
  · intro k rest
    show handshake_loop _ 1 = _
    rw [handshake_loop_replicate k 1]
    show some (Except.ok (), 1 + k + 1) = some (Except.ok (), k + 2)
    congr 2
    omega
  · intro k e rest
    show handshake_loop _ 1 = _
    rw [handshake_loop_replicate k 1]
    show some (Except.error e, 1 + k + 1) = some (Except.error e, k + 2)
    congr 2
    omega
  · intro k e o rest
    show handshake_loop _ 1 = _
    rw [handshake_loop_replicate k 1]
    show some (Except.error e, 1 + k) = some (Except.error e, k + 1)
    congr 2
    omega

/-! ## The workspace dependency-graph utility (sqlx-cli/src/metadata.rs)

`MetadataId` is modelled as `Nat`; the `BTreeMap<MetadataId, BTreeSet<MetadataId>>`
of reverse dependencies as an association list; the accumulating
`BTreeSet` of dependents as a list used as a set (`insert` succeeds exactly
when the element is not yet a member). The unbounded Rust recursion becomes
a fuel-indexed computation; fuel exhaustion is `none`, and the fuel bound
below is proven sufficient. -/

/-- The reverse-dependency map: per package id, its immediate dependents. -/
abbrev ReverseDeps := List (Nat × List Nat)

/-- `self.reverse_deps.get(id)` followed by the (possibly empty) iteration:
the immediate dependents of `id`, empty when `id` has no entry. -/
def succs (g : ReverseDeps) (id : Nat) : List Nat :=
  (List.lookup id g).getD []

/-- `b` is an immediate dependent of `a`. -/
def depends_edge (g : ReverseDeps) (a b : Nat) : Prop :=
  b ∈ succs g a

mutual

/-- `Metadata::all_dependents_of_helper`: for each immediate dependent of
`id`, if inserting it into the set succeeds recurse into it, else skip.
The first argument is fuel; the Rust original recurses without any. -/
def all_dependents_of_helper (g : ReverseDeps) :
    Nat → Nat → List Nat → Option (List Nat)
  | 0, _, _ => none
  | fuel + 1, id, s => helper_fold g fuel (succs g id) s
termination_by fuel _i _s => (fuel, 0)

/-- The body of the helper's `for` loop over the immediate dependents. -/
def helper_fold (g : ReverseDeps) :
    Nat → List Nat → List Nat → Option (List Nat)
  | _, [], s => some s
  | fuel, d :: ds, s =>
    if d ∈ s then
      helper_fold g fuel ds s
    else
      match all_dependents_of_helper g fuel d (d :: s) with
      | none => none
      | some s1 => helper_fold g fuel ds s1
termination_by fuel l _s => (fuel, l.length + 1)

end

/-- All package ids appearing as anyone's immediate dependent. -/
def all_vals (g : ReverseDeps) : List Nat :=
  (g.map Prod.snd).flatten

/-- A fuel amount sufficient for the traversal of `g` (proven below). -/
def reverse_deps_bound (g : ReverseDeps) : Nat :=
  (all_vals g).dedup.length + 1

/-- `Metadata::all_dependents_of`: run the helper on an empty set. -/
def all_dependents_of (g : ReverseDeps) (id : Nat) : List Nat :=
  (all_dependents_of_helper g (reverse_deps_bound g) id []).getD []

theorem mem_of_lookup_eq_some (id : Nat) (g : ReverseDeps) (l : List Nat)
    (h : List.lookup id g = some l) : (id, l) ∈ g := by
  induction g with
  | nil => simp [List.lookup] at h
  | cons p rest ih =>
    obtain ⟨k, v⟩ := p
    rw [List.lookup] at h
    cases hbeq : (id == k) with
    | true =>
      rw [hbeq] at h
      have hk : id = k := eq_of_beq hbeq
      have hv : v = l := by injection h
      exact List.mem_cons.mpr (Or.inl (by rw [hk, hv]))
    | false =>
      rw [hbeq] at h
      exact List.mem_cons.mpr (Or.inr (ih h))

theorem succs_subset_all_vals (g : ReverseDeps) (id d : Nat)
    (h : d ∈ succs g id) : d ∈ all_vals g := by
  unfold succs at h
  cases hl : List.lookup id g with
  | none => rw [hl] at h; simp at h
  | some l =>
    rw [hl] at h
    have hmem : (id, l) ∈ g := mem_of_lookup_eq_some id g l hl
    have : l ∈ g.map Prod.snd := List.mem_map_of_mem Prod.snd hmem
    exact List.mem_flatten.mpr ⟨l, this, h⟩

theorem dependents_mono (g : ReverseDeps) : ∀ fuel,
    (∀ id s s', all_dependents_of_helper g fuel id s = some s' → s ⊆ s')
    ∧ (∀ l s s', helper_fold g fuel l s = some s' → s ⊆ s') := by
  intro fuel
  induction fuel with
  | zero =>
    have hfold : ∀ l s s', helper_fold g 0 l s = some s' → s ⊆ s' := by
      intro l
      induction l with
      | nil =>
        intro s s' h
        rw [helper_fold] at h
        injection h with h
        subst h
        exact fun x hx => hx
      | cons d ds ih =>
        intro s s' h
        rw [helper_fold] at h
        by_cases hd : d ∈ s
        · rw [if_pos hd] at h
          exact ih s s' h
        · rw [if_neg hd] at h
          rw [all_dependents_of_helper] at h
          exact absurd h (by simp)
    exact ⟨fun id s s' h => by rw [all_dependents_of_helper] at h; exact absurd h (by simp),
      hfold⟩
  | succ f ihf =>
    have hH : ∀ id s s',
        all_dependents_of_helper g (f + 1) id s = some s' → s ⊆ s' := by
      intro id s s' h
      rw [all_dependents_of_helper] at h
      exact ihf.2 _ _ _ h
    have hF : ∀ l s s', helper_fold g (f + 1) l s = some s' → s ⊆ s' := by
      intro l
      induction l with
      | nil =>
        intro s s' h
        rw [helper_fold] at h
        injection h with h
        subst h
        exact fun x hx => hx
      | cons d ds ih =>
        intro s s' h
        rw [helper_fold] at h
        by_cases hd : d ∈ s
        · rw [if_pos hd] at h
          exact ih s s' h
        · rw [if_neg hd] at h
          cases h1 : all_dependents_of_helper g (f + 1) d (d :: s) with
          | none => rw [h1] at h; exact absurd h (by simp)
          | some s1 =>
            rw [h1] at h
            have hs1 : (d :: s) ⊆ s1 := hH d (d :: s) s1 h1
            have hsub : s ⊆ d :: s := fun x hx => List.mem_cons_of_mem d hx
            exact hsub.trans (hs1.trans (ih s1 s' h))
    exact ⟨hH, hF⟩

/-- The number of ids the traversal can still insert: ids occurring as
someone's dependent but not yet in the accumulated set. -/
def potential (g : ReverseDeps) (s : List Nat) : Nat :=
  ((all_vals g).toFinset.filter (fun x => x ∉ s)).card

theorem potential_anti (g : ReverseDeps) (s t : List Nat) (h : s ⊆ t) :
    potential g t ≤ potential g s := by
  apply Finset.card_le_card
  intro x hx
  rw [Finset.mem_filter] at hx ⊢
  exact ⟨hx.1, fun hmem => hx.2 (h hmem)⟩

theorem potential_insert_lt (g : ReverseDeps) (d : Nat) (s : List Nat)
    (hd : d ∈ all_vals g) (hns : d ∉ s) : potential g (d :: s) < potential g s := by
  apply Finset.card_lt_card
  rw [Finset.ssubset_def]
  constructor
  · intro x hx
    rw [Finset.mem_filter] at hx ⊢
    exact ⟨hx.1, fun hmem => hx.2 (List.mem_cons_of_mem d hmem)⟩
  · intro hsup
    have hdmem : d ∈ (all_vals g).toFinset.filter (fun x => x ∉ s) := by
      rw [Finset.mem_filter]
      exact ⟨List.mem_toFinset.mpr hd, hns⟩
    have hd2 := hsup hdmem
    rw [Finset.mem_filter] at hd2
    exact hd2.2 (List.mem_cons_self d s)

theorem dependents_enough (g : ReverseDeps) : ∀ fuel,
    (∀ id s, potential g s < fuel →
      ∃ S, all_dependents_of_helper g fuel id s = some S)
    ∧ (∀ l s, potential g s ≤ fuel → (∀ d ∈ l, d ∈ all_vals g) →
      ∃ S, helper_fold g fuel l s = some S) := by
  intro fuel
  induction fuel with
  | zero =>
    have hfold : ∀ l s, potential g s ≤ 0 → (∀ d ∈ l, d ∈ all_vals g) →
        ∃ S, helper_fold g 0 l s = some S := by
      intro l
      induction l with
      | nil => exact fun s _ _ => ⟨s, by rw [helper_fold]⟩
      | cons d ds ih =>
        intro s hpot hl
        by_cases hd : d ∈ s
        · obtain ⟨S, hS⟩ := ih s hpot (fun x hx => hl x (List.mem_cons_of_mem d hx))
          exact ⟨S, by rw [helper_fold, if_pos hd]; exact hS⟩
        · exfalso
          have hdv : d ∈ all_vals g := hl d (List.mem_cons_self d ds)
          have : potential g (d :: s) < potential g s := potential_insert_lt g d s hdv hd
          omega
    exact ⟨fun id s h => absurd h (Nat.not_lt_zero _), hfold⟩
  | succ f ihf =>
    have hH : ∀ id s, potential g s < f + 1 →
        ∃ S, all_dependents_of_helper g (f + 1) id s = some S := by
      intro id s h
      obtain ⟨S, hS⟩ := ihf.2 (succs g id) s (Nat.lt_succ_iff.mp h)
        (fun d hd => succs_subset_all_vals g id d hd)
      exact ⟨S, by rw [all_dependents_of_helper]; exact hS⟩
    have hF : ∀ l s, potential g s ≤ f + 1 → (∀ d ∈ l, d ∈ all_vals g) →
        ∃ S, helper_fold g (f + 1) l s = some S := by
      intro l
      induction l with
      | nil => exact fun s _ _ => ⟨s, by rw [helper_fold]⟩
      | cons d ds ih =>
        intro s hpot hl
        by_cases hd : d ∈ s
        · obtain ⟨S, hS⟩ := ih s hpot (fun x hx => hl x (List.mem_cons_of_mem d hx))
          exact ⟨S, by rw [helper_fold, if_pos hd]; exact hS⟩
        · have hdv : d ∈ all_vals g := hl d (List.mem_cons_self d ds)
          have hdec : potential g (d :: s) < potential g s :=
            potential_insert_lt g d s hdv hd
          obtain ⟨s1, hs1⟩ := hH d (d :: s) (by omega)
          have hmono : (d :: s) ⊆ s1 := (dependents_mono g (f + 1)).1 d (d :: s) s1 hs1
          have hpot1 : potential g s1 ≤ potential g (d :: s) :=
            potential_anti g (d :: s) s1 hmono
          obtain ⟨S, hS⟩ := ih s1 (by omega)
            (fun x hx => hl x (List.mem_cons_of_mem d hx))
          exact ⟨S, by rw [helper_fold, if_neg hd, hs1]; exact hS⟩
    exact ⟨hH, hF⟩

theorem dependents_sound (g : ReverseDeps) : ∀ fuel,
    (∀ id s s', all_dependents_of_helper g fuel id s = some s' →
      ∀ x ∈ s', x ∈ s ∨ Relation.TransGen (depends_edge g) id x)
    ∧ (∀ l s s', helper_fold g fuel l s = some s' →
      ∀ x ∈ s', x ∈ s ∨ ∃ d ∈ l, x = d ∨ Relation.TransGen (depends_edge g) d x) := by
  intro fuel
  induction fuel with
  | zero =>
    have hfold : ∀ l s s', helper_fold g 0 l s = some s' →
        ∀ x ∈ s', x ∈ s ∨ ∃ d ∈ l, x = d ∨ Relation.TransGen (depends_edge g) d x := by
      intro l
      induction l with
      | nil =>
        intro s s' h x hx
        rw [helper_fold] at h
        injection h with h
        subst h
        exact Or.inl hx
      | cons d ds ih =>
        intro s s' h x hx
        rw [helper_fold] at h
        by_cases hd : d ∈ s
        · rw [if_pos hd] at h
          rcases ih s s' h x hx with hin | ⟨d', hd', hcase⟩
          · exact Or.inl hin
          · exact Or.inr ⟨d', List.mem_cons_of_mem d hd', hcase⟩
        · rw [if_neg hd, all_dependents_of_helper] at h
          exact absurd h (by simp)
    exact ⟨fun id s s' h => by rw [all_dependents_of_helper] at h; exact absurd h (by simp),
      hfold⟩
  | succ f ihf =>
    have hH : ∀ id s s', all_dependents_of_helper g (f + 1) id s = some s' →
        ∀ x ∈ s', x ∈ s ∨ Relation.TransGen (depends_edge g) id x := by
      intro id s s' h x hx
      rw [all_dependents_of_helper] at h
      rcases ihf.2 (succs g id) s s' h x hx with hin | ⟨d, hd, hcase⟩
      · exact Or.inl hin
      · have hedge : depends_edge g id d := hd
        rcases hcase with rfl | htrans
        · exact Or.inr (Relation.TransGen.single hedge)
        · exact Or.inr (Relation.TransGen.head hedge htrans)
    have hF : ∀ l s s', helper_fold g (f + 1) l s = some s' →
        ∀ x ∈ s', x ∈ s ∨ ∃ d ∈ l, x = d ∨ Relation.TransGen (depends_edge g) d x := by
      intro l
      induction l with
      | nil =>
        intro s s' h x hx
        rw [helper_fold] at h
        injection h with h
        subst h
        exact Or.inl hx
      | cons d ds ih =>
        intro s s' h x hx
        rw [helper_fold] at h
        by_cases hd : d ∈ s
        · rw [if_pos hd] at h
          rcases ih s s' h x hx with hin | ⟨d', hd', hcase⟩
          · exact Or.inl hin
          · exact Or.inr ⟨d', List.mem_cons_of_mem d hd', hcase⟩
        · rw [if_neg hd] at h
          cases h1 : all_dependents_of_helper g (f + 1) d (d :: s) with
          | none => rw [h1] at h; exact absurd h (by simp)
          | some s1 =>
            rw [h1] at h
            rcases ih s1 s' h x hx with hin1 | ⟨d', hd', hcase⟩
            · rcases hH d (d :: s) s1 h1 x hin1 with hds | htrans
              · rcases List.mem_cons.mp hds with rfl | hs
                · exact Or.inr ⟨x, List.mem_cons_self x ds, Or.inl rfl⟩
                · exact Or.inl hs
              · exact Or.inr ⟨d, List.mem_cons_self d ds, Or.inr htrans⟩
            · exact Or.inr ⟨d', List.mem_cons_of_mem d hd', hcase⟩
    exact ⟨hH, hF⟩

theorem dependents_closed (g : ReverseDeps) : ∀ fuel,
    (∀ id s s', all_dependents_of_helper g fuel id s = some s' →
      (∀ d ∈ succs g id, d ∈ s') ∧ ∀ x ∈ s', x ∉ s → ∀ y ∈ succs g x, y ∈ s')
    ∧ (∀ l s s', helper_fold g fuel l s = some s' →
      (∀ d ∈ l, d ∈ s') ∧ ∀ x ∈ s', x ∉ s → ∀ y ∈ succs g x, y ∈ s') := by
  intro fuel
  induction fuel with
  | zero =>
    have hfold : ∀ l s s', helper_fold g 0 l s = some s' →
        (∀ d ∈ l, d ∈ s') ∧ ∀ x ∈ s', x ∉ s → ∀ y ∈ succs g x, y ∈ s' := by
      intro l
      induction l with
      | nil =>
        intro s s' h
        rw [helper_fold] at h
        injection h with h
        subst h
        exact ⟨fun d hd => absurd hd (List.not_mem_nil d),
          fun x hx hnx _ _ => absurd hx hnx⟩
      | cons d ds ih =>
        intro s s' h
        rw [helper_fold] at h
        by_cases hd : d ∈ s
        · rw [if_pos hd] at h
          obtain ⟨hds, hx⟩ := ih s s' h
          have hsub : s ⊆ s' := (dependents_mono g 0).2 ds s s' h
          refine ⟨fun d' hd' => ?_, hx⟩
          rcases List.mem_cons.mp hd' with rfl | hmem
          · exact hsub hd
          · exact hds d' hmem
        · rw [if_neg hd, all_dependents_of_helper] at h
          exact absurd h (by simp)
    exact ⟨fun id s s' h => by rw [all_dependents_of_helper] at h; exact absurd h (by simp),
      hfold⟩
  | succ f ihf =>
    have hH : ∀ id s s', all_dependents_of_helper g (f + 1) id s = some s' →
        (∀ d ∈ succs g id, d ∈ s') ∧ ∀ x ∈ s', x ∉ s → ∀ y ∈ succs g x, y ∈ s' := by
      intro id s s' h
      rw [all_dependents_of_helper] at h
      exact ihf.2 (succs g id) s s' h
    have hF : ∀ l s s', helper_fold g (f + 1) l s = some s' →
        (∀ d ∈ l, d ∈ s') ∧ ∀ x ∈ s', x ∉ s → ∀ y ∈ succs g x, y ∈ s' := by
      intro l
      induction l with
      | nil =>
        intro s s' h
        rw [helper_fold] at h
        injection h with h
        subst h
        exact ⟨fun d hd => absurd hd (List.not_mem_nil d),
          fun x hx hnx _ _ => absurd hx hnx⟩
      | cons d ds ih =>
        intro s s' h
        rw [helper_fold] at h
        by_cases hd : d ∈ s
        · rw [if_pos hd] at h
          obtain ⟨hds, hx⟩ := ih s s' h
          have hsub : s ⊆ s' := (dependents_mono g (f + 1)).2 ds s s' h
          refine ⟨fun d' hd' => ?_, hx⟩
          rcases List.mem_cons.mp hd' with rfl | hmem
          · exact hsub hd
          · exact hds d' hmem
        · rw [if_neg hd] at h
          cases h1 : all_dependents_of_helper g (f + 1) d (d :: s) with
          | none => rw [h1] at h; exact absurd h (by simp)
          | some s1 =>
            rw [h1] at h
            obtain ⟨hsuccd, hclosed1⟩ := hH d (d :: s) s1 h1
            obtain ⟨hds, hclosed2⟩ := ih s1 s' h
            have hmono1 : (d :: s) ⊆ s1 := (dependents_mono g (f + 1)).1 d (d :: s) s1 h1
            have hmono2 : s1 ⊆ s' := (dependents_mono g (f + 1)).2 ds s1 s' h
            constructor
            · intro d' hd'
              rcases List.mem_cons.mp hd' with rfl | hmem
              · exact hmono2 (hmono1 (List.mem_cons_self d' s))
              · exact hds d' hmem
            · intro x hx hnx y hy
              by_cases hx1 : x ∈ s1
              · by_cases hxd : x = d
                · subst hxd
                  exact hmono2 (hsuccd y hy)
                · have hnxds : x ∉ d :: s := by
                    intro hmem
                    rcases List.mem_cons.mp hmem with h' | h'
                    · exact hxd h'
                    · exact hnx h'
                  exact hmono2 (hclosed1 x hx1 hnxds y hy)
              · exact hclosed2 x hx hx1 y hy
    exact ⟨hH, hF⟩

theorem potential_nil_lt_bound (g : ReverseDeps) :
    potential g [] < reverse_deps_bound g := by
  unfold potential reverse_deps_bound
  have hfil : ((all_vals g).toFinset.filter (fun x => x ∉ ([] : List Nat)))
      = (all_vals g).toFinset := by
    apply Finset.filter_true_of_mem
    intro x _
    exact List.not_mem_nil x
  rw [hfil, List.card_toFinset]
  omega

/-- C8: `all_dependents_of` computes exactly the ids reachable from `id` by
one or more reverse-dependency steps — all direct and transitive dependents. -/
theorem all_dependents_of_spec (g : ReverseDeps) (id x : Nat) :
    x ∈ all_dependents_of g id ↔ Relation.TransGen (depends_edge g) id x := by
  obtain ⟨S, hS⟩ :=
    (dependents_enough g (reverse_deps_bound g)).1 id [] (potential_nil_lt_bound g)
  unfold all_dependents_of
  rw [hS]
  show x ∈ S ↔ _
  constructor
  · intro hx
    rcases (dependents_sound g _).1 id [] S hS x hx with hnil | htrans
    · exact absurd hnil (List.not_mem_nil x)
    · exact htrans
  · intro htg
    obtain ⟨hsucc, hclose⟩ := (dependents_closed g _).1 id [] S hS
    induction htg with
    | single h => exact hsucc _ h
    | tail hab hbc ih => exact hclose _ ih (List.not_mem_nil _) _ hbc

/-- C10: the helper terminates on every finite reverse-dependency graph,
cyclic ones included — with the fuel bound, the fuel is never exhausted,
because recursion only proceeds after inserting a not-yet-present id. -/
theorem all_dependents_of_helper_terminates (g : ReverseDeps) (id : Nat) :
    ∃ S, all_dependents_of_helper g (reverse_deps_bound g) id [] = some S :=
  (dependents_enough g (reverse_deps_bound g)).1 id [] (potential_nil_lt_bound g)

end Sqlx
